import Mathlib

/-!
Verification of the MaxMemory hybrid memory engine
(`src/app/services/memory_service.py` and its callers in
`src/app/api/v1/endpoints/memory.py`).

Texts are shallowly embedded as `List Char` (Python `str`), FAISS raw
scores as `ℚ` (exact arithmetic in place of IEEE floats; the truncation
`int(...)` is modelled exactly), the FAISS vector store as a list of
entries (for writes) or an abstract similarity oracle (for reads, since
the nearest-neighbour ordering itself is a black box), and the Neo4j
graph as lists of nodes and edges with numeric node identities.
-/

set_option autoImplicit false
set_option maxRecDepth 100000

-- Rational arithmetic is sealed in the library; open it up so that the
-- concrete witness/counterexample computations reduce.
unseal Rat.add Rat.mul Rat.inv Rat.sub

namespace MaxMemory

/-- Python strings are modelled as lists of characters. -/
abbrev LStr := List Char

/-- The apostrophe character (used inside the negation cue vocabulary). -/
def apoC : Char := Char.ofNat 39

/-- Whitespace recognised by Python `str.split()` / `str.strip()`. -/
def isSpaceC (c : Char) : Bool :=
  c == ' ' || c == '\t' || c == '\n' || c == '\r' || c == Char.ofNat 11 || c == Char.ofNat 12

/-- Sentence-boundary punctuation of `re.split(r'[.!?]+', text)`. -/
def isPunctC (c : Char) : Bool :=
  c == '.' || c == '!' || c == '?'

/-- Python `str.lower()` (ASCII-accurate; all inputs in this repo are ASCII). -/
def pyLower (s : LStr) : LStr := s.map Char.toLower

/-- Python `str.strip()`: drop leading and trailing whitespace. -/
def pyStrip (s : LStr) : LStr :=
  ((( s.dropWhile isSpaceC).reverse.dropWhile isSpaceC)).reverse

/-- Worker for `pyWords`: accumulate the current word (reversed) while
scanning, flushing at whitespace. -/
def wordsGo : LStr → LStr → List LStr
  | acc, [] => if acc = [] then [] else [acc.reverse]
  | acc, c :: cs =>
    if isSpaceC c then
      if acc = [] then wordsGo [] cs else acc.reverse :: wordsGo [] cs
    else wordsGo (c :: acc) cs

/-- Python `str.split()` with no argument: split on whitespace runs,
discarding empty pieces. -/
def pyWords (s : LStr) : List LStr := wordsGo [] s

/-- Worker for `splitPunct`: split at every sentence-punctuation character
(splitting on single characters and later discarding empty/whitespace
pieces is equivalent to `re.split(r'[.!?]+')` followed by the same
discard). -/
def splitPunctGo : LStr → LStr → List LStr
  | acc, [] => [acc.reverse]
  | acc, c :: cs =>
    if isPunctC c then acc.reverse :: splitPunctGo [] cs
    else splitPunctGo (c :: acc) cs

/-- `re.split(r'[.!?]+', text)` (up to empty pieces, which the caller strips
and discards). -/
def splitPunct (s : LStr) : List LStr := splitPunctGo [] s

/-- Python `' '.join(words)`. -/
def joinSp (ws : List LStr) : LStr := List.intercalate [' '] ws

/-- Bool test that `pat` is a leading segment of `s`. -/
def isPre : LStr → LStr → Bool
  | [], _ => true
  | _ :: _, [] => false
  | a :: as, b :: bs => a == b && isPre as bs

/-- Python `pat in s`: substring containment. -/
def isSubstrB (pat : LStr) : LStr → Bool
  | [] => isPre pat []
  | c :: cs => isPre pat (c :: cs) || isSubstrB pat cs

/-- Python `s.replace(pat, rep)` worker (left-to-right, non-overlapping).
All patterns used by the service are non-empty. -/
def replGo (pat rep : LStr) : LStr → LStr
  | [] => []
  | c :: cs =>
    if isPre pat (c :: cs) then rep ++ replGo pat rep (cs.drop (pat.length - 1))
    else c :: replGo pat rep cs
termination_by l => l.length
decreasing_by
  · simp only [List.length_cons]
    have := List.length_drop (pat.length - 1) cs
    omega
  · simp [Nat.lt_succ_self]

/-- Python `s.replace(pat, rep)`. -/
def pyReplace (s pat rep : LStr) : LStr := replGo pat rep s

/-! ## The chunker: `MemoryService._split_document` -/

/-- The fixed negation-cue vocabulary of `_split_document`
(`negation_keywords`, memory_service.py line 85). -/
def negation_keywords : List LStr :=
  [ "not".toList, "no longer".toList,
    "doesn".toList ++ [apoC] ++ "t".toList,
    "don".toList ++ [apoC] ++ "t".toList,
    "left".toList, "stopped".toList, "quit".toList, "resigned".toList ]

/-- `any(neg in s.lower() for neg in negation_keywords)`. -/
def negAny (s : LStr) : Bool :=
  negation_keywords.any (fun n => isSubstrB n (pyLower s))

/-- The `"[NEG] "` marker prepended to a negation-tagged chunk. -/
def negMark : LStr := "[NEG] ".toList

/-- Prepend the negation marker: `f"[NEG] {chunk_text}"`. -/
def negTag (s : LStr) : LStr := negMark ++ s

/-- `chunk_word_limit = 100`. -/
def chunk_word_limit : Nat := 100

/-- `overlap = 10`. -/
def chunkOverlap : Nat := 10

/-- The mutable loop state of `_split_document`: finished chunks, the word
buffer, its word count, and the overlap words saved from the last
sentence. -/
structure SplitSt where
  chunks : List LStr
  current_chunk : List LStr
  current_word_count : Nat
  overlap_words : List LStr
deriving Repr, DecidableEq

/-- One iteration of the `for sentence in sentences` loop of
`_split_document` (memory_service.py lines 90-127). -/
def splitStep (st : SplitSt) (sentence : LStr) : SplitSt :=
  let words := pyWords sentence
  if words = [] then st
  else
    let sentence_word_count := words.length
    let sentence_lower := pyLower sentence
    let has_negation := negation_keywords.any (fun n => isSubstrB n sentence_lower)
    -- natural chunk-boundary flush (lines 101-111)
    let st1 :=
      if st.current_word_count + sentence_word_count > chunk_word_limit ∧
          st.current_chunk ≠ [] then
        let chunk_text := joinSp st.current_chunk
        let chunks' :=
          if 5 ≤ (pyWords chunk_text).length then st.chunks ++ [pyStrip chunk_text]
          else st.chunks
        { chunks := chunks',
          current_chunk := st.overlap_words ++ words,
          current_word_count := (st.overlap_words ++ words).length,
          overlap_words := st.overlap_words }
      else
        { st with
          current_chunk := st.current_chunk ++ words,
          current_word_count := st.current_word_count + sentence_word_count }
    -- save overlap words for the next chunk (line 114)
    let st2 :=
      { st1 with
        overlap_words :=
          if chunkOverlap < words.length then words.drop (words.length - chunkOverlap)
          else words }
    -- force flush an oversized buffer (lines 117-127); `>= 100 * 1.5` is `>= 150`
    if 3 * chunk_word_limit ≤ 2 * st2.current_word_count then
      let chunk_text := joinSp (st2.current_chunk.take chunk_word_limit)
      let chunk_text2 := if has_negation then negTag chunk_text else chunk_text
      let chunks' :=
        if 5 ≤ (pyWords chunk_text).length then st2.chunks ++ [pyStrip chunk_text2]
        else st2.chunks
      { st2 with
        chunks := chunks',
        current_chunk := st2.current_chunk.drop (chunk_word_limit - chunkOverlap),
        current_word_count := (st2.current_chunk.drop (chunk_word_limit - chunkOverlap)).length }
    else st2

/-- `sentences = [s.strip() for s in re.split(r'[.!?]+', text) if s.strip()]`. -/
def sentencesOf (t : LStr) : List LStr :=
  ((splitPunct t).map pyStrip).filter (fun s => decide (s ≠ []))

/-- The whole-text fallback chunk of `_split_document` (lines 139-143). -/
def fallbackChunk (t : LStr) : LStr :=
  if negAny (pyStrip t) then negTag (pyStrip t) else pyStrip t

/-- `MemoryService._split_document` (memory_service.py lines 66-145): split
into sentences, greedily pack sentences into overlapping chunks, tag
negation, fall back to the whole trimmed text when nothing was produced. -/
def _split_document (text : LStr) : List LStr :=
  let sentences := sentencesOf text
  if sentences = [] then []
  else
    let st := sentences.foldl splitStep ⟨[], [], 0, []⟩
    -- add remaining chunk (lines 130-136)
    let chunks :=
      if st.current_chunk ≠ [] then
        let chunk_text := joinSp st.current_chunk
        if 5 ≤ (pyWords chunk_text).length then
          st.chunks ++ [pyStrip (if negAny chunk_text then negTag chunk_text else chunk_text)]
        else st.chunks
      else st.chunks
    -- whole-text fallback (lines 139-143)
    if chunks = [] ∧ pyStrip text ≠ [] then [fallbackChunk text]
    else chunks

/-! ## Data model: FAISS entries and the Neo4j graph

An entry of the FAISS store is its text plus the metadata payload the
service writes.  Every write path of the service
(`add_document_memory`, `add_chat_memory`, the `clear_all` rebuild)
stores `user_id` and `project_id` strings in the metadata, so these
fields are mandatory here; `source` and `chunk_index` are optional
(conversation turns have no `chunk_index`, rebuilt entries may have a
null `source`). -/

structure VecEntry where
  text : LStr
  user_id : LStr
  project_id : LStr
  source : Option LStr
  chunk_index : Option Nat
deriving Repr, DecidableEq

/-- A `Memory` node of the Neo4j graph.  `id` is the node identity
(`CREATE` always makes a fresh node); `source` is set only for chat
memories; `ts` abstracts the `datetime()` creation stamp. -/
structure MemNode where
  id : Nat
  text : LStr
  user_id : LStr
  project_id : LStr
  source : Option LStr
  chunk_index : Option Nat
  priority : ℚ
  ts : Nat
deriving Repr, DecidableEq

/-- A `Document` node, keyed by its `id` property (`MERGE (d:Document {id: $doc_id})`). -/
structure DocNode where
  key : LStr
  source : LStr
  user_id : LStr
  project_id : LStr
deriving Repr, DecidableEq

/-- The Neo4j graph: `Document` and `Memory` nodes, `CONTAINS` edges
(document key × memory id) and `NEXT` edges (memory id × memory id).
`nextMemId` supplies fresh node identities: every stored node id is
below it (see `GraphWF`). -/
structure Graph where
  docs : List DocNode
  mems : List MemNode
  contains : List (LStr × Nat)
  nexts : List (Nat × Nat)
  nextMemId : Nat
deriving Repr, DecidableEq

/-- The graph with nothing stored. -/
def emptyGraph : Graph := ⟨[], [], [], [], 0⟩

/-- Well-formedness: node ids and edge endpoints are below the fresh-id
counter (true of every graph built by the service's operations). -/
def GraphWF (g : Graph) : Prop :=
  (∀ m ∈ g.mems, m.id < g.nextMemId) ∧
  (∀ p ∈ g.nexts, p.1 < g.nextMemId ∧ p.2 < g.nextMemId)

/-- The service's mutable state: the optional in-process FAISS store
(`self.vector_store`, `None` until first load/creation) and the graph. -/
structure SvcState where
  vs : Option (List VecEntry)
  graph : Graph
deriving Repr, DecidableEq

/-! ## Graph write primitives (the Cypher statements of the service) -/

/-- `MERGE (d:Document {id: $doc_id}) ON CREATE SET ...`: match on the key
alone; create with properties only when absent. -/
def mergeDoc (g : Graph) (key source user_id project_id : LStr) : Graph :=
  if g.docs.any (fun d => d.key == key) then g
  else { g with docs := g.docs ++ [⟨key, source, user_id, project_id⟩] }

/-- `CREATE (m:Memory {text: ...}) SET ...`: always a fresh node. -/
def createMem (g : Graph) (text user_id project_id : LStr)
    (chunk_index : Option Nat) (source : Option LStr) (priority : ℚ) : Graph :=
  { g with
    mems := g.mems ++ [⟨g.nextMemId, text, user_id, project_id, source, chunk_index, priority, g.nextMemId⟩],
    nextMemId := g.nextMemId + 1 }

/-- `MERGE (d)-[:CONTAINS]->(m)`. -/
def mergeContains (g : Graph) (key : LStr) (mid : Nat) : Graph :=
  if (key, mid) ∈ g.contains then g
  else { g with contains := g.contains ++ [(key, mid)] }

/-- The `NEXT` linking statement of `add_document_memory` (lines 194-198):
`MATCH (m1:Memory {text: $prev_text}) MATCH (m2:Memory {text: $curr_text})
MERGE (m1)-[:NEXT]->(m2)` — a cartesian MERGE over *all* node pairs whose
texts match. -/
def mergeNextAll (g : Graph) (prev_text curr_text : LStr) : Graph :=
  let m1s := g.mems.filter (fun m => m.text == prev_text)
  let m2s := g.mems.filter (fun m => m.text == curr_text)
  let pairs := m1s.flatMap (fun a => m2s.map (fun b => (a.id, b.id)))
  pairs.foldl
    (fun g' p => if p ∈ g'.nexts then g' else { g' with nexts := g'.nexts ++ [p] }) g

/-! ## Service write operations -/

/-- The Neo4j loop of `add_document_memory` (lines 176-198): per chunk,
upsert the document, create the memory node, attach it, and link it to
all nodes carrying the previous chunk's text. -/
def ingestChunksGo (key source user_id project_id : LStr) :
    Graph → Option LStr → Nat → List LStr → Graph
  | g, _, _, [] => g
  | g, prev, i, c :: rest =>
    let g1 := mergeDoc g key source user_id project_id
    let g2 := createMem g1 c user_id project_id (some i) none 1
    let g3 := mergeContains g2 key g1.nextMemId
    let g4 :=
      match prev with
      | none => g3
      | some p => mergeNextAll g3 p c
    ingestChunksGo key source user_id project_id g4 (some c) (i + 1) rest

/-- The metadata dict passed to `add_document_memory`.  Both API callers
always supply `user_id` and `project_id`; `source` and `doc_id` default
inside the service. -/
structure MetaD where
  source : Option LStr
  doc_id : Option LStr
  user_id : LStr
  project_id : LStr
deriving Repr, DecidableEq

/-- `MemoryService.add_document_memory` (lines 147-201): chunk the text,
append one FAISS entry per chunk (creating the store when it is `None`),
then write document, memory, `CONTAINS` and `NEXT` records to the graph.
Returns the new state with the returned `{"chunks": ..., "doc_id": ...}`. -/
def add_document_memory (st : SvcState) (text : LStr) (md : MetaD) :
    SvcState × Nat × LStr :=
  let chunks := _split_document text
  let source := md.source.getD "unknown".toList
  let doc_id := md.doc_id.getD source
  let entries := (List.range chunks.length).zip chunks |>.map
    (fun p => VecEntry.mk p.2 md.user_id md.project_id (some source) (some p.1))
  let vs' :=
    match st.vs with
    | none => some entries
    | some es => some (es ++ entries)
  let g' := ingestChunksGo doc_id source md.user_id md.project_id st.graph none 0 chunks
  (⟨vs', g'⟩, chunks.length, doc_id)

/-- The error carried when a Python statement raises. -/
def pyAttrError : LStr := "AttributeError: NoneType has no attribute add_texts".toList

/-- `MemoryService.add_chat_memory` (lines 203-234): combine the turn into
one text, append it to the FAISS store, then create one chat `Memory`
node.  When `self.vector_store` is `None`, `self.vector_store.add_texts`
raises before any write, so the state is returned unchanged together
with the exception. -/
def add_chat_memory (st : SvcState) (query answer user_id project_id : LStr) :
    SvcState × Option LStr :=
  let text := "User: ".toList ++ query ++ "\nAssistant: ".toList ++ answer
  match st.vs with
  | none => (st, some pyAttrError)
  | some es =>
    let vs' := some (es ++ [VecEntry.mk text user_id project_id (some "chat".toList) none])
    let g' := createMem st.graph text user_id project_id none (some "chat".toList) (4 / 5)
    (⟨vs', g'⟩, none)

/-- The FAISS entry rebuilt from a surviving memory node by `clear_all`
(metadata `{user_id, project_id, source}`; the chunk index is lost). -/
def entryOfMem (m : MemNode) : VecEntry :=
  ⟨m.text, m.user_id, m.project_id, m.source, none⟩

/-- The graph effect of `clear_all`'s
`MATCH (n {user_id: ..., project_id: ...}) DETACH DELETE n` (lines
384-388): drop every matching node and every edge that lost an
endpoint. -/
def clearGraph (g : Graph) (user_id project_id : LStr) : Graph :=
  let mems' := g.mems.filter (fun m => !(m.user_id == user_id && m.project_id == project_id))
  let docs' := g.docs.filter (fun d => !(d.user_id == user_id && d.project_id == project_id))
  let contains' := g.contains.filter
    (fun p => docs'.any (fun d => d.key == p.1) && mems'.any (fun m => m.id == p.2))
  let nexts' := g.nexts.filter
    (fun p => mems'.any (fun m => m.id == p.1) && mems'.any (fun m => m.id == p.2))
  ⟨docs', mems', contains', nexts', g.nextMemId⟩

/-- `MemoryService.clear_all` (lines 381-415): `DETACH DELETE` every node
whose `user_id`/`project_id` properties match, then discard the FAISS
snapshot and rebuild it from *all* surviving memory nodes (the store
stays `None` when none survive). -/
def clear_all (st : SvcState) (user_id project_id : LStr) : SvcState :=
  let g' := clearGraph st.graph user_id project_id
  if g'.mems = [] then ⟨none, g'⟩
  else ⟨some (g'.mems.map entryOfMem), g'⟩

/-- `MemoryService.get_total_memory_count` (lines 417-426). -/
def get_total_memory_count (g : Graph) (user_id project_id : LStr) : Nat :=
  (g.mems.filter (fun m => m.user_id == user_id && m.project_id == project_id)).length

/-! ## Retrieval: `MemoryService.query_memories`

The FAISS nearest-neighbour ordering is a black box, so the loaded store
is abstracted as a similarity oracle: a function from the search text and
`k` to the list of `(entry, raw L2 distance)` pairs FAISS would return,
or `none` when `similarity_search_with_score` raises (the `except`
branch of `search_with_query`). -/

/-- A loaded FAISS store viewed through `similarity_search_with_score`. -/
def SimFn : Type := LStr → Nat → Option (List (VecEntry × ℚ))

/-- Python `int(...)` applied to an exact rational: truncation toward zero. -/
def pyInt (q : ℚ) : ℤ := q.num.tdiv q.den

/-- `similarity = 1 / (1 + score); match_percentage = int(similarity * 100)`
(lines 319-321). -/
def matchPercentage (score : ℚ) : ℤ := pyInt (1 / (1 + score) * 100)

/-- The langchain `Document` held in a result pair: its text and the
metadata fields the stages populate.  Vector hits carry the stored
payload (tenant included); the dummy documents built by the keyword
fallback (line 308) carry only `source` and `timestamp`. -/
structure RDoc where
  text : LStr
  m_user_id : Option LStr
  m_project_id : Option LStr
  m_source : Option LStr
  m_ts : Option Nat
deriving Repr, DecidableEq

/-- The result document of a vector-index hit. -/
def rdocOfEntry (e : VecEntry) : RDoc :=
  ⟨e.text, some e.user_id, some e.project_id, e.source, none⟩

/-- The dummy result document of a keyword-fallback hit. -/
def rdocOfMem (m : MemNode) : RDoc :=
  ⟨m.text, none, none, m.source, some m.ts⟩

/-- One returned memory dict:
`{"text", "metadata", "score", "match_percentage"}`. -/
structure QueryResult where
  doc : RDoc
  score : ℚ
  match_percentage : ℤ
deriving Repr, DecidableEq

/-- The `search_with_query` helper (lines 242-260): over-fetch `3k`
neighbours, keep pairs whose stored tenant matches the caller exactly,
truncate to `k`; a raised search error yields `[]`. -/
def search_with_query (sim : SimFn) (user_id project_id : LStr) (k : Nat)
    (search_query : LStr) : List (RDoc × ℚ) :=
  match sim search_query (k * 3) with
  | none => []
  | some results =>
    (((results.filter (fun p => p.1.user_id == user_id && p.1.project_id == project_id)).take k).map
      (fun p => (rdocOfEntry p.1, p.2)))

/-- The fixed typo-substitution dictionary (lines 267-270, in insertion
order). -/
def typo_fixes : List (LStr × LStr) :=
  [ ("fidn".toList, "friend".toList), ("frnd".toList, "friend".toList),
    ("fren".toList, "friend".toList), ("wrk".toList, "work".toList),
    ("wrking".toList, "working".toList), ("drc".toList, "DRC".toList) ]

/-- Stage-2 typo expansion (lines 271-276): fold the substitutions over the
lowered query, recording whether any fired. -/
def expandTypos (q : LStr) : LStr × Bool :=
  typo_fixes.foldl
    (fun s pr => if isSubstrB pr.1 s.1 then (pyReplace s.1 pr.1 pr.2, true) else s)
    (pyLower q, false)

/-- Merge results not yet present by exact text (lines 282-287 and
303-312 share this accumulate-unseen shape). -/
def mergeUnseen (base extra : List (RDoc × ℚ)) : List (RDoc × ℚ) :=
  extra.foldl
    (fun acc p => if acc.any (fun r => r.1.text == p.1.text) then acc else acc ++ [p])
    base

/-- Stage 3, the keyword graph fallback (lines 290-312): tokens longer
than 3 characters (at most 3 of them), each matched case-insensitively
against tenant-scoped memory texts (`LIMIT 3`), unseen texts appended as
dummy documents with the fixed neutral score `0.5`. -/
def keywordStage (g : Graph) (q user_id project_id : LStr)
    (base : List (RDoc × ℚ)) : List (RDoc × ℚ) :=
  let keywords := (pyWords (pyLower q)).filter (fun w => decide (3 < w.length))
  if keywords = [] then base
  else
    (keywords.take 3).foldl
      (fun acc kw =>
        let records := (g.mems.filter
          (fun m => m.user_id == user_id && m.project_id == project_id &&
            isSubstrB (pyLower kw) (pyLower m.text))).take 3
        records.foldl
          (fun acc2 m =>
            if acc2.any (fun r => r.1.text == m.text) then acc2
            else acc2 ++ [(rdocOfMem m, 1 / 2)])
          acc)
      base

/-- Turn the final `(doc, score)` pairs into the returned memory dicts
(lines 317-330). -/
def finalizeResults (rs : List (RDoc × ℚ)) : List QueryResult :=
  rs.map (fun p => ⟨p.1, p.2, matchPercentage p.2⟩)

/-- Stages 1 and 2 of the cascade (lines 262-287): direct semantic
search, then — when under `k` results — the typo-corrected retry merged
in by unseen text. -/
def stage12 (sim : SimFn) (q user_id project_id : LStr) (k : Nat) : List (RDoc × ℚ) :=
  let results1 := search_with_query sim user_id project_id k q
  if results1 = [] ∨ results1.length < k then
    let ec := expandTypos q
    if ec.2 then mergeUnseen results1 (search_with_query sim user_id project_id k ec.1)
    else results1
  else results1

/-- `MemoryService.query_memories` (lines 237-330): return `[]` when no
vector store is loaded; otherwise cascade direct semantic search,
typo-corrected retry, and the keyword graph fallback, truncate to `k`,
and attach scores. -/
def query_memories (vs : Option SimFn) (g : Graph) (q user_id project_id : LStr)
    (k : Nat) : List QueryResult :=
  match vs with
  | none => []
  | some sim =>
    let results2 := stage12 sim q user_id project_id k
    let results3 :=
      if results2.length < k then keywordStage g q user_id project_id results2
      else results2
    finalizeResults (results3.take k)

/-! ## Descriptors used by the `NEXT`-edge theorems -/

/-- `chainAux a b n`: `n` edges `(a,b), (b,b+1), (b+1,b+2), …`. -/
def chainAux : Nat → Nat → Nat → List (Nat × Nat)
  | _, _, 0 => []
  | a, b, n + 1 => (a, b) :: chainAux b (b + 1) n

/-- The `n` consecutive `NEXT` edges starting at node id `a`:
`(a,a+1), (a+1,a+2), …`. -/
def nextChain (a n : Nat) : List (Nat × Nat) := chainAux a (a + 1) n

/-- The memory nodes a fresh ingestion of `chunks` creates, with ids from
`b` and chunk indices from `i`. -/
def newMemsFrom (user_id project_id : LStr) : Nat → Nat → List LStr → List MemNode
  | _, _, [] => []
  | b, i, c :: rest =>
    ⟨b, c, user_id, project_id, none, some i, 1, b⟩ ::
      newMemsFrom user_id project_id (b + 1) (i + 1) rest

/-- Total number of words the chunker's sentence loop processes. -/
def sentenceWordSum (t : LStr) : Nat :=
  ((sentencesOf t).map (fun s => (pyWords s).length)).sum

/-- All sentence words of a text, in order. -/
def allBodyWords (t : LStr) : List LStr := ((sentencesOf t).map pyWords).flatten

/-! ## Python call compatibility (service signatures vs. endpoint call sites)

`src/app/api/v1/endpoints/memory.py` invokes the memory service with a
`conversation_id` keyword argument, but no function of
`src/app/services/memory_service.py` declares such a parameter; a Python
call supplying an unknown keyword raises `TypeError` before the body
runs.  The parameter lists below are transcribed from the service
signatures (lines 61/147, 237, 332, 361, 417) and the keyword sets from
the endpoint call sites (lines 65-69, 127-131, 134-138, 141-146). -/

/-- Python call check: every keyword argument must name a declared
parameter. -/
def pyCallAccepts (params kwargs : List String) : Bool :=
  kwargs.all (fun kw => params.contains kw)

def add_document_memory_params : List String := ["text", "metadata"]

def query_memories_params : List String := ["query", "user_id", "project_id", "k"]

def get_recent_memories_params : List String := ["user_id", "project_id", "limit"]

def get_memories_by_document_params : List String := ["user_id", "project_id"]

def get_total_memory_count_params : List String := ["user_id", "project_id"]

/-- Keywords of the `upload_file` call to `add_document_memory`
(`text` and `metadata` are passed positionally). -/
def upload_call_kwargs : List String := ["conversation_id"]

/-- Keywords of the `get_recent_memories` endpoint's service calls. -/
def total_count_call_kwargs : List String := ["user_id", "project_id", "conversation_id"]

def document_counts_call_kwargs : List String := ["user_id", "project_id", "conversation_id"]

def recent_memories_call_kwargs : List String :=
  ["limit", "user_id", "project_id", "conversation_id"]

/-! ## Concrete fixtures used by witnesses and counterexamples -/

/-- 99 filler words (sentence 1 of the two-chunk document). -/
def exWordsA : List LStr := List.replicate 99 "aa".toList

/-- 21 filler words (sentence 2 of the two-chunk document). -/
def exWordsB : List LStr := List.replicate 21 "bb".toList

/-- A document whose chunker output is exactly two chunks. -/
def exText2 : LStr := joinSp exWordsA ++ ". ".toList ++ joinSp exWordsB ++ ".".toList

/-- Like `exText2` but the first sentence contains the cue `not`. -/
def exTextNeg : LStr :=
  joinSp ("not".toList :: List.replicate 98 "aa".toList) ++ ". ".toList ++ joinSp exWordsB ++ ".".toList

/-- The spec's own chunker example: one negation-tagged chunk. -/
def exTextSpec : LStr := "Parth works at Acme. He no longer works at Acme.".toList

/-- Short sentences with punctuation: exercises the whole-text fallback. -/
def exTextHi : LStr := "Hi there. Ok.".toList

def exMeta : MetaD := ⟨some "s".toList, some "d".toList, "u".toList, "p".toList⟩

def exState0 : SvcState := ⟨none, emptyGraph⟩

/-- State after ingesting `exText2` once into the empty service. -/
def exState1 : SvcState := (add_document_memory exState0 exText2 exMeta).1

/-- State after ingesting `exText2` twice (text collision with itself). -/
def exState2 : SvcState := (add_document_memory exState1 exText2 exMeta).1

def exVecEntry : VecEntry :=
  ⟨"vector text".toList, "u".toList, "p".toList, some "doc".toList, some 0⟩

/-- An oracle returning one tenant-matching neighbour at distance 2. -/
def exSim : SimFn := fun _ _ => some [(exVecEntry, 2)]

/-- An oracle whose every search raises. -/
def exFailSim : SimFn := fun _ _ => none

/-- A graph holding one memory of tenant `(u, p)` whose text contains the
keyword `alpha`. -/
def exGraph : Graph :=
  ⟨[], [⟨7, "see alpha here".toList, "u".toList, "p".toList, none, some 0, 1, 7⟩], [], [], 8⟩

def exQuery : LStr := "alpha bravo".toList

/-- A query run that mixes one vector hit with one keyword-fallback hit. -/
def exOut : List QueryResult :=
  query_memories (some exSim) exGraph exQuery "u".toList "p".toList 5

/-- Two tenants' worth of graph data for the `clear_all` witness. -/
def exGraphAB : Graph :=
  ⟨[⟨"d1".toList, "s".toList, "u1".toList, "p1".toList⟩],
   [⟨0, "ta".toList, "u1".toList, "p1".toList, none, some 0, 1, 0⟩,
    ⟨1, "tb".toList, "u2".toList, "p2".toList, none, some 0, 1, 1⟩],
   [("d1".toList, 0)], [(0, 1)], 2⟩

def exStateAB : SvcState := ⟨some [], exGraphAB⟩

/-- The vector-hit result of `exOut`. -/
def exVecResult : QueryResult :=
  ⟨⟨"vector text".toList, some "u".toList, some "p".toList, some "doc".toList, none⟩, 2, 33⟩

/-- The keyword-fallback result of `exOut`. -/
def exFallbackResult : QueryResult :=
  ⟨⟨"see alpha here".toList, none, none, none, some 7⟩, 1 / 2, 66⟩

/-! ## Support lemmas about the Python string primitives -/

theorem wordsGo_allspace (s : LStr) (hs : ∀ c ∈ s, isSpaceC c = true) (acc : LStr) :
    wordsGo acc s = wordsGo acc [] := by
  induction s generalizing acc with
  | nil => rfl
  | cons c cs ih =>
    have hc : isSpaceC c = true := hs c (List.mem_cons_self _ _)
    have hcs : ∀ x ∈ cs, isSpaceC x = true := fun x hx => hs x (List.mem_cons_of_mem _ hx)
    by_cases ha : acc = []
    · subst ha
      simp only [wordsGo, hc, if_true, if_pos rfl]
      rw [ih hcs]
      rfl
    · simp only [wordsGo, hc, if_true, if_neg ha]
      rw [ih hcs]
      simp [wordsGo, ha]

theorem wordsGo_append_allspace (s t : LStr) (ht : ∀ c ∈ t, isSpaceC c = true) (acc : LStr) :
    wordsGo acc (s ++ t) = wordsGo acc s := by
  induction s generalizing acc with
  | nil => simpa using wordsGo_allspace t ht acc
  | cons c cs ih =>
    simp only [List.cons_append, wordsGo]
    by_cases hc : isSpaceC c
    · simp only [hc, if_true]
      by_cases ha : acc = [] <;> simp [ha, ih]
    · simp [hc, ih]

theorem wordsGo_dropWhile (s : LStr) :
    wordsGo [] (s.dropWhile isSpaceC) = wordsGo [] s := by
  induction s with
  | nil => rfl
  | cons c cs ih =>
    by_cases hc : isSpaceC c
    · rw [List.dropWhile_cons_of_pos hc, ih]
      simp [wordsGo, hc]
    · rw [List.dropWhile_cons_of_neg hc]

theorem pyWords_pyStrip (s : LStr) : pyWords (pyStrip s) = pyWords s := by
  unfold pyWords pyStrip
  set p := isSpaceC
  set ls := s.dropWhile p with hls
  set rs := ls.reverse with hrs
  have hdecomp : ls = (rs.dropWhile p).reverse ++ (rs.takeWhile p).reverse := by
    have h1 : rs.takeWhile p ++ rs.dropWhile p = rs := List.takeWhile_append_dropWhile p rs
    have : rs.reverse = (rs.takeWhile p ++ rs.dropWhile p).reverse := by rw [h1]
    rw [List.reverse_append] at this
    rw [← List.reverse_reverse ls, ← hrs, this]
  have hspaces : ∀ c ∈ (rs.takeWhile p).reverse, p c = true := by
    intro c hc
    exact List.mem_takeWhile_imp (List.mem_reverse.mp hc)
  calc wordsGo [] (rs.dropWhile p).reverse
      = wordsGo [] ((rs.dropWhile p).reverse ++ (rs.takeWhile p).reverse) :=
        (wordsGo_append_allspace _ _ hspaces []).symm
    _ = wordsGo [] ls := by rw [← hdecomp]
    _ = wordsGo [] s := wordsGo_dropWhile s

theorem pyWords_negTag (s : LStr) :
    pyWords (negTag s) = "[NEG]".toList :: pyWords s := rfl

theorem wordsGo_eq_nil_iff (s : LStr) (acc : LStr) :
    wordsGo acc s = [] ↔ acc = [] ∧ ∀ c ∈ s, isSpaceC c = true := by
  induction s generalizing acc with
  | nil =>
    by_cases ha : acc = [] <;> simp [wordsGo, ha]
  | cons c cs ih =>
    by_cases hc : isSpaceC c
    · by_cases ha : acc = []
      · subst ha
        simp only [wordsGo, hc, if_true, if_pos rfl, ih]
        simp [hc]
      · simp [wordsGo, hc, ha]
    · simp only [wordsGo, hc, if_false]
      simp [ih, hc]

theorem pyWords_eq_nil_iff (s : LStr) :
    pyWords s = [] ↔ ∀ c ∈ s, isSpaceC c = true := by
  rw [pyWords, wordsGo_eq_nil_iff]
  simp

theorem pyStrip_eq_nil_iff (s : LStr) :
    pyStrip s = [] ↔ ∀ c ∈ s, isSpaceC c = true := by
  unfold pyStrip
  set p := isSpaceC
  constructor
  · intro h c hc
    have h2 : ∀ x ∈ (s.dropWhile p).reverse, p x = true := by
      rw [List.reverse_eq_nil_iff] at h
      exact List.dropWhile_eq_nil_iff.mp h
    have hdw : ∀ x ∈ s.dropWhile p, p x = true := fun x hx =>
      h2 x (List.mem_reverse.mpr hx)
    have hc' : c ∈ List.takeWhile p s ++ List.dropWhile p s := by
      rw [List.takeWhile_append_dropWhile]
      exact hc
    rcases List.mem_append.mp hc' with h3 | h3
    · exact List.mem_takeWhile_imp h3
    · exact hdw c h3
  · intro h
    have h1 : s.dropWhile p = [] := List.dropWhile_eq_nil_iff.mpr fun x hx => h x hx
    simp [h1]

theorem mem_splitPunctGo (s : LStr) :
    ∀ (acc piece : LStr), piece ∈ splitPunctGo acc s →
      ∀ c ∈ piece, c ∈ acc ∨ c ∈ s := by
  induction s with
  | nil =>
    intro acc piece hp c hc
    simp only [splitPunctGo, List.mem_singleton] at hp
    subst hp
    exact Or.inl (List.mem_reverse.mp hc)
  | cons c0 cs ih =>
    intro acc piece hp c hc
    by_cases h0 : isPunctC c0
    · simp only [splitPunctGo, h0, if_true, List.mem_cons] at hp
      rcases hp with hp | hp
      · subst hp
        exact Or.inl (List.mem_reverse.mp hc)
      · rcases ih [] piece hp c hc with h | h
        · exact absurd h (List.not_mem_nil c)
        · exact Or.inr (List.mem_cons_of_mem _ h)
    · simp only [splitPunctGo, h0, if_false] at hp
      rcases ih (c0 :: acc) piece hp c hc with h | h
      · rcases List.mem_cons.mp h with h | h
        · exact Or.inr (h ▸ List.mem_cons_self _ _)
        · exact Or.inl h
      · exact Or.inr (List.mem_cons_of_mem _ h)

theorem sentencesOf_eq_nil_of_allspace (t : LStr)
    (h : ∀ c ∈ t, isSpaceC c = true) : sentencesOf t = [] := by
  unfold sentencesOf
  rw [List.filter_eq_nil_iff]
  intro s hs
  simp only [decide_eq_true_eq, not_not]
  rcases List.mem_map.mp hs with ⟨piece, hpiece, hstrip⟩
  have hp : ∀ c ∈ piece, isSpaceC c = true := by
    intro c hc
    rcases mem_splitPunctGo t [] piece hpiece c hc with h0 | h0
    · exact absurd h0 (List.not_mem_nil c)
    · exact h c h0
  rw [← hstrip]
  exact (pyStrip_eq_nil_iff piece).mpr hp

theorem pyWords_of_sentence (t : LStr) (s : LStr) (hs : s ∈ sentencesOf t) :
    s ≠ [] ∧ pyWords s ≠ [] := by
  unfold sentencesOf at hs
  rcases List.mem_filter.mp hs with ⟨hmem, hne⟩
  have hne' : s ≠ [] := by simpa using hne
  refine ⟨hne', ?_⟩
  rcases List.mem_map.mp hmem with ⟨piece, _, hstrip⟩
  intro hw
  have h1 : pyWords s = pyWords piece := by rw [← hstrip, pyWords_pyStrip]
  have h2 : pyWords piece = [] := by rw [← h1]; exact hw
  have h3 : pyStrip piece = [] :=
    (pyStrip_eq_nil_iff piece).mpr ((pyWords_eq_nil_iff piece).mp h2)
  exact hne' (by rw [← hstrip, h3])

/-! ## Chunk word-count invariant (claim C4) -/

theorem ge5_strip {ct : LStr} (h : 5 ≤ (pyWords ct).length) :
    5 ≤ (pyWords (pyStrip ct)).length := by
  rw [pyWords_pyStrip]
  exact h

theorem ge5_strip_tag {ct : LStr} (h : 5 ≤ (pyWords ct).length) (b : Bool) :
    5 ≤ (pyWords (pyStrip (if b then negTag ct else ct))).length := by
  cases b
  · simpa [pyWords_pyStrip] using h
  · simp only [if_true, pyWords_pyStrip, pyWords_negTag, List.length_cons]
    omega

theorem ge5_strip_tag' {ct : LStr} (h : 5 ≤ (pyWords ct).length) :
    5 ≤ (pyWords (pyStrip (negTag ct))).length := by
  simp only [pyWords_pyStrip, pyWords_negTag, List.length_cons]
  omega

theorem splitStep_ge5 (st : SplitSt) (s : LStr)
    (h : ∀ c ∈ st.chunks, 5 ≤ (pyWords c).length) :
    ∀ c ∈ (splitStep st s).chunks, 5 ≤ (pyWords c).length := by
  intro c hc
  simp only [splitStep] at hc
  split_ifs at hc <;>
  · first
    | exact h c hc
    | (simp only [List.mem_append, List.mem_singleton] at hc
       first
       | (rcases hc with (hc | rfl) | rfl
          · exact h c hc
          · first
            | exact ge5_strip (by assumption)
            | exact ge5_strip_tag' (by assumption)
          · first
            | exact ge5_strip (by assumption)
            | exact ge5_strip_tag' (by assumption))
       | (rcases hc with hc | rfl
          · exact h c hc
          · first
            | exact ge5_strip (by assumption)
            | exact ge5_strip_tag' (by assumption)))

theorem foldl_splitStep_ge5 (ss : List LStr) (st : SplitSt)
    (h : ∀ c ∈ st.chunks, 5 ≤ (pyWords c).length) :
    ∀ c ∈ (ss.foldl splitStep st).chunks, 5 ≤ (pyWords c).length := by
  induction ss generalizing st with
  | nil => exact h
  | cons s ss ih => exact ih _ (splitStep_ge5 st s h)

theorem out_cases (L : List LStr) (fb : LStr) (P : Prop) [Decidable P]
    (hL : ∀ c ∈ L, 5 ≤ (pyWords c).length) :
    (∀ c ∈ (if L = [] ∧ P then [fb] else L), 5 ≤ (pyWords c).length) ∨
      (if L = [] ∧ P then [fb] else L) = [fb] := by
  split_ifs with h
  · right
    rfl
  · left
    exact hL

/-- C4 (amended): every chunk `_split_document` returns has at least 5
words, unless the output is exactly the single whole-text fallback chunk
— which is emitted whenever no accumulated chunk survives the 5-word
guard, with or without sentence punctuation in the text; and
empty/whitespace-only input yields an empty chunk list. -/
theorem chunker_min_words (text : LStr) :
    ((∀ c ∈ _split_document text, 5 ≤ (pyWords c).length) ∨
      _split_document text = [fallbackChunk text]) ∧
    (pyStrip text = [] → _split_document text = []) := by
  constructor
  · by_cases hsent : sentencesOf text = []
    · left
      intro c hc
      simp [_split_document, hsent] at hc
    · have hst : ∀ c ∈ ((sentencesOf text).foldl splitStep ⟨[], [], 0, []⟩).chunks,
          5 ≤ (pyWords c).length :=
        foldl_splitStep_ge5 _ _ (by intro c hc; simp at hc)
      simp only [_split_document]
      rw [if_neg hsent]
      apply out_cases
      intro c hc
      split_ifs at hc
      all_goals first
        | exact hst c hc
        | (rcases List.mem_append.mp hc with hc | hc
           · exact hst c hc
           · rcases List.mem_singleton.mp hc with rfl
             first
               | exact ge5_strip (by assumption)
               | exact ge5_strip_tag' (by assumption))
  · intro hstrip
    have hsent : sentencesOf text = [] :=
      sentencesOf_eq_nil_of_allspace text ((pyStrip_eq_nil_iff text).mp hstrip)
    simp [_split_document, hsent]

/-- C4 counterexample: `"Hi there. Ok."` contains sentence punctuation,
yet `_split_document` returns a single 3-word chunk — the under-5-words
fallback is not restricted to punctuation-free inputs. -/
theorem chunker_min_words_cex :
    ¬ ((∀ c ∈ _split_document exTextHi, 5 ≤ (pyWords c).length) ∨
        (∀ c ∈ exTextHi, isPunctC c = false)) := by
  decide

/-- C4 witness: whitespace-only input yields no chunks. -/
theorem chunker_min_words_witness : _split_document "   ".toList = [] :=
  (chunker_min_words ("   ".toList)).2 (by decide)

/-! ## Negation tagging on small inputs (claim C3) -/

theorem foldl_no_flush (ss : List LStr) :
    ∀ (ws ow : List LStr),
      ws.length + (ss.map (fun s => (pyWords s).length)).sum ≤ chunk_word_limit →
      ∃ ow', ss.foldl splitStep ⟨[], ws, ws.length, ow⟩ =
        ⟨[], ws ++ (ss.map pyWords).flatten, (ws ++ (ss.map pyWords).flatten).length, ow'⟩ := by
  induction ss with
  | nil =>
    intro ws ow _
    exact ⟨ow, by simp⟩
  | cons s rest ih =>
    intro ws ow h
    simp only [List.map_cons, List.sum_cons] at h
    by_cases hw : pyWords s = []
    · have hstep : splitStep ⟨[], ws, ws.length, ow⟩ s = ⟨[], ws, ws.length, ow⟩ := by
        simp [splitStep, hw]
      rw [List.foldl_cons, hstep]
      obtain ⟨ow', h'⟩ := ih ws ow (by omega)
      exact ⟨ow', by simpa [hw] using h'⟩
    · have hnat : ¬(ws.length + (pyWords s).length > chunk_word_limit ∧ (ws : List LStr) ≠ []) := by
        intro hcon
        omega
      have hforce : ¬(3 * chunk_word_limit ≤ 2 * (ws.length + (pyWords s).length)) := by
        simp only [chunk_word_limit] at h ⊢
        omega
      have hstep : splitStep ⟨[], ws, ws.length, ow⟩ s =
          ⟨[], ws ++ pyWords s, (ws ++ pyWords s).length,
            (if chunkOverlap < (pyWords s).length then
              (pyWords s).drop ((pyWords s).length - chunkOverlap) else pyWords s)⟩ := by
        simp [splitStep, hw, hnat, hforce]
      rw [List.foldl_cons, hstep]
      obtain ⟨ow', h'⟩ := ih (ws ++ pyWords s) _ (by simp only [List.length_append]; omega)
      refine ⟨ow', ?_⟩
      rw [h']
      simp [List.append_assoc]

/-- C3 (amended): chunks flushed inside the sentence loop are tagged (or
not) independently of their own text — the natural-boundary flush never
tags and the force flush consults only the current sentence — so the
claimed equivalence holds on the paths that inspect the emitted text:
for any text whose sentences hold at most `chunk_word_limit` words in
total (hence no in-loop flush can fire), the single remainder or
fallback chunk carries the `[NEG]` marker iff its text contains a
negation cue. -/
theorem chunker_negation_small (t : LStr) (h : sentenceWordSum t ≤ chunk_word_limit) :
    _split_document t =
      if sentencesOf t = [] then []
      else if 5 ≤ (pyWords (joinSp (allBodyWords t))).length then
        [pyStrip (if negAny (joinSp (allBodyWords t)) then negTag (joinSp (allBodyWords t))
          else joinSp (allBodyWords t))]
      else if pyStrip t = [] then [] else [fallbackChunk t] := by
  by_cases hsent : sentencesOf t = []
  · simp [_split_document, hsent]
  · obtain ⟨ow', hfold⟩ := foldl_no_flush (sentencesOf t) [] []
      (by simpa [sentenceWordSum] using h)
    simp only [List.length_nil, List.nil_append] at hfold
    have hne : allBodyWords t ≠ [] := by
      rcases hs : sentencesOf t with _ | ⟨s, ss⟩
      · exact absurd hs hsent
      · have hws : pyWords s ≠ [] :=
          (pyWords_of_sentence t s (by rw [hs]; exact List.mem_cons_self _ _)).2
        simp only [allBodyWords, hs, List.map_cons, List.flatten_cons]
        intro hcon
        rcases List.append_eq_nil.mp hcon with ⟨h1, _⟩
        exact hws h1
    simp only [_split_document]
    rw [if_neg hsent, if_neg hsent, hfold]
    simp only [List.nil_append]
    have hbody : ((sentencesOf t).map pyWords).flatten = allBodyWords t := rfl
    rw [hbody, if_pos hne]
    by_cases h5 : 5 ≤ (pyWords (joinSp (allBodyWords t))).length
    · rw [if_pos h5, if_pos h5]
      have : ([] : List LStr) ++
          [pyStrip (if negAny (joinSp (allBodyWords t)) then negTag (joinSp (allBodyWords t))
            else joinSp (allBodyWords t))] ≠ [] := by simp
      simp
    · rw [if_neg h5, if_neg h5]
      by_cases hstrip : pyStrip t = []
      · simp [hstrip]
      · simp [hstrip]

/-- C3 counterexample: in `exTextNeg` the first chunk is flushed at a
natural sentence boundary; it contains the cue `not` but carries no
`[NEG]` marker, refuting the claimed equivalence. -/
theorem chunker_negation_cex :
    ¬ (∀ c ∈ _split_document exTextNeg, (negAny c = true ↔ isPre negMark c = true)) := by
  decide

/-- C3 witness: the spec's own example text is below the no-flush bound
and yields one negation-tagged chunk. -/
theorem chunker_negation_witness :
    _split_document exTextSpec =
      [negTag "Parth works at Acme He no longer works at Acme".toList] := by
  rw [chunker_negation_small exTextSpec (by decide)]
  decide

/-! ## Provenance lemmas for the retrieval cascade (claims C1, C5, C9) -/

theorem mem_search_with_query {sim : SimFn} {user_id project_id : LStr} {k : Nat}
    {sq : LStr} {p : RDoc × ℚ} (h : p ∈ search_with_query sim user_id project_id k sq) :
    p.1.m_user_id = some user_id ∧ p.1.m_project_id = some project_id := by
  unfold search_with_query at h
  rcases hres : sim sq (k * 3) with _ | results
  · rw [hres] at h
    exact absurd h (List.not_mem_nil p)
  · rw [hres] at h
    rcases List.mem_map.mp h with ⟨q, hq, rfl⟩
    have hq' := List.mem_of_mem_take hq
    rcases List.mem_filter.mp hq' with ⟨_, hcond⟩
    rcases Bool.and_eq_true_iff.mp hcond with ⟨hu, hp⟩
    refine ⟨?_, ?_⟩
    · simp [rdocOfEntry, eq_of_beq hu]
    · simp [rdocOfEntry, eq_of_beq hp]

theorem mem_mergeUnseen {base extra : List (RDoc × ℚ)} {x : RDoc × ℚ}
    (h : x ∈ mergeUnseen base extra) : x ∈ base ∨ x ∈ extra := by
  induction extra generalizing base with
  | nil => exact Or.inl h
  | cons e es ih =>
    have h' : x ∈ mergeUnseen
        (if base.any (fun r => r.1.text == e.1.text) then base else base ++ [e]) es := h
    rcases ih h' with hb | he
    · split_ifs at hb with hcond
      · exact Or.inl hb
      · rcases List.mem_append.mp hb with hb | hb
        · exact Or.inl hb
        · exact Or.inr (List.mem_singleton.mp hb ▸ List.mem_cons_self _ _)
    · exact Or.inr (List.mem_cons_of_mem _ he)

theorem mem_fallback_fold {x : RDoc × ℚ} :
    ∀ (ms : List MemNode) (acc : List (RDoc × ℚ)),
      x ∈ ms.foldl
        (fun acc2 m =>
          if acc2.any (fun r => r.1.text == m.text) then acc2
          else acc2 ++ [(rdocOfMem m, 1 / 2)]) acc →
      x ∈ acc ∨ ∃ m ∈ ms, x = (rdocOfMem m, 1 / 2) := by
  intro ms
  induction ms with
  | nil => exact fun acc h => Or.inl h
  | cons m ms ih =>
    intro acc h
    rcases ih _ h with hb | ⟨m', hm', rfl⟩
    · simp only [] at hb
      split_ifs at hb with hcond
      · exact Or.inl hb
      · rcases List.mem_append.mp hb with hb | hb
        · exact Or.inl hb
        · exact Or.inr ⟨m, List.mem_cons_self _ _, List.mem_singleton.mp hb⟩
    · exact Or.inr ⟨m', List.mem_cons_of_mem _ hm', rfl⟩

theorem mem_keyword_outer_fold {g : Graph} {user_id project_id : LStr} {x : RDoc × ℚ} :
    ∀ (kws : List LStr) (base : List (RDoc × ℚ)),
      x ∈ kws.foldl
        (fun acc kw =>
          ((g.mems.filter
            (fun m => m.user_id == user_id && m.project_id == project_id &&
              isSubstrB (pyLower kw) (pyLower m.text))).take 3).foldl
            (fun acc2 m =>
              if acc2.any (fun r => r.1.text == m.text) then acc2
              else acc2 ++ [(rdocOfMem m, 1 / 2)]) acc) base →
      x ∈ base ∨
        ∃ m ∈ g.mems, m.user_id = user_id ∧ m.project_id = project_id ∧
          x = (rdocOfMem m, 1 / 2) := by
  intro kws
  induction kws with
  | nil => exact fun base h => Or.inl h
  | cons kw kws ih =>
    intro base h
    rw [List.foldl_cons] at h
    rcases ih _ h with hb | hgr
    · rcases mem_fallback_fold _ _ hb with hb' | ⟨m, hm, rfl⟩
      · exact Or.inl hb'
      · have hm' := List.mem_of_mem_take hm
        rcases List.mem_filter.mp hm' with ⟨hmem, hcond⟩
        rcases Bool.and_eq_true_iff.mp hcond with ⟨hup, _⟩
        rcases Bool.and_eq_true_iff.mp hup with ⟨hu, hp⟩
        exact Or.inr ⟨m, hmem, eq_of_beq hu, eq_of_beq hp, rfl⟩
    · exact Or.inr hgr

theorem mem_keywordStage {g : Graph} {q user_id project_id : LStr}
    {base : List (RDoc × ℚ)} {x : RDoc × ℚ}
    (h : x ∈ keywordStage g q user_id project_id base) :
    x ∈ base ∨
      ∃ m ∈ g.mems, m.user_id = user_id ∧ m.project_id = project_id ∧
        x = (rdocOfMem m, 1 / 2) := by
  simp only [keywordStage] at h
  split_ifs at h
  · exact Or.inl h
  · exact mem_keyword_outer_fold _ _ h

/-- Elements of the stage-1/2 accumulator are tenant-filtered vector
hits. -/
theorem mem_stage12 {sim : SimFn} {q user_id project_id : LStr} {k : Nat}
    {p : RDoc × ℚ} (h : p ∈ stage12 sim q user_id project_id k) :
    p.1.m_user_id = some user_id ∧ p.1.m_project_id = some project_id := by
  simp only [stage12] at h
  split_ifs at h
  · rcases mem_mergeUnseen h with h1 | h1 <;> exact mem_search_with_query h1
  · exact mem_search_with_query h
  · exact mem_search_with_query h

/-- Elements of the final truncated result list come from the cascade
accumulator. -/
theorem mem_query_memories {sim : SimFn} {g : Graph} {q user_id project_id : LStr}
    {k : Nat} {r : QueryResult}
    (h : r ∈ query_memories (some sim) g q user_id project_id k) :
    (r.doc.m_user_id = some user_id ∧ r.doc.m_project_id = some project_id) ∨
      ∃ m ∈ g.mems, m.user_id = user_id ∧ m.project_id = project_id ∧
        r.doc = rdocOfMem m ∧ r.score = 1 / 2 := by
  simp only [query_memories, finalizeResults] at h
  rcases List.mem_map.mp h with ⟨p, hp, rfl⟩
  have hp3 := List.mem_of_mem_take hp
  split_ifs at hp3
  · rcases mem_keywordStage hp3 with hb | ⟨m, hm, hu, hpr, rfl⟩
    · exact Or.inl (mem_stage12 hb)
    · exact Or.inr ⟨m, hm, hu, hpr, rfl, rfl⟩
  · exact Or.inl (mem_stage12 hp3)

/-- C1: every memory returned by `query_memories` — from any cascade
stage, under any nearest-neighbour ordering — has stored `user_id` and
`project_id` exactly matching the caller's: vector hits carry the
caller's tenant in their stored payload, and keyword-fallback hits come
from graph memory nodes whose stored tenant matches. -/
theorem query_memories_tenant_isolated (vs : Option SimFn) (g : Graph)
    (q user_id project_id : LStr) (k : Nat) :
    ∀ r ∈ query_memories vs g q user_id project_id k,
      (r.doc.m_user_id = some user_id ∧ r.doc.m_project_id = some project_id) ∨
        ∃ m ∈ g.mems, m.text = r.doc.text ∧ m.user_id = user_id ∧
          m.project_id = project_id := by
  intro r hr
  rcases vs with _ | sim
  · exact absurd hr (List.not_mem_nil r)
  · rcases mem_query_memories hr with hvec | ⟨m, hm, hu, hp, hdoc, _⟩
    · exact Or.inl hvec
    · exact Or.inr ⟨m, hm, by rw [hdoc]; rfl, hu, hp⟩

/-- C1 witness: the fallback hit of a concrete run is backed by a
tenant-matching graph node. -/
theorem query_memories_tenant_isolated_witness :
    (exFallbackResult.doc.m_user_id = some "u".toList ∧
      exFallbackResult.doc.m_project_id = some "p".toList) ∨
      ∃ m ∈ exGraph.mems, m.text = exFallbackResult.doc.text ∧
        m.user_id = "u".toList ∧ m.project_id = "p".toList :=
  query_memories_tenant_isolated (some exSim) exGraph exQuery "u".toList "p".toList 5
    exFallbackResult (by decide)

/-! ## Degradation when the vector index is unavailable (claim C5) -/

/-- C5 counterexample: with no vector store loaded, `query_memories`
returns `[]` immediately even though the graph holds a tenant-scoped
keyword match (which the same query returns once a store object exists,
here one whose searches all fail). -/
theorem query_memories_no_store_cex :
    query_memories none exGraph exQuery "u".toList "p".toList 5 = [] ∧
      query_memories (some exFailSim) exGraph exQuery "u".toList "p".toList 5 ≠ [] := by
  constructor
  · rfl
  · decide

/-- C5 (amended): if the vector store failed to load or was never created
(`self.vector_store is None`), search returns the empty list at once and
no fallback runs; only when a store object exists but its searches
raise does the cascade degrade to exactly the keyword-graph-fallback
stage. -/
theorem query_memories_no_store (g : Graph) (q user_id project_id : LStr) (k : Nat) :
    query_memories none g q user_id project_id k = [] ∧
      (∀ sim : SimFn, (∀ s n, sim s n = none) → 0 < k →
        query_memories (some sim) g q user_id project_id k =
          finalizeResults ((keywordStage g q user_id project_id []).take k)) := by
  constructor
  · rfl
  · intro sim hsim hk
    have hsearch : ∀ sq, search_with_query sim user_id project_id k sq = [] := by
      intro sq
      unfold search_with_query
      rw [hsim]
    have hstage : stage12 sim q user_id project_id k = [] := by
      simp only [stage12, hsearch]
      have hmerge : mergeUnseen [] [] = ([] : List (RDoc × ℚ)) := rfl
      simp only [hmerge, List.length_nil, hk, if_pos (Or.inl rfl)]
      split_ifs <;> rfl
    simp only [query_memories, hstage, List.length_nil, hk, if_pos hk]
    simp

/-- C5 witness: the amended degradation at a concrete failing store. -/
theorem query_memories_no_store_witness :
    query_memories (some exFailSim) exGraph exQuery "u".toList "p".toList 5 =
      finalizeResults ((keywordStage exGraph exQuery "u".toList "p".toList []).take 5) :=
  (query_memories_no_store exGraph exQuery "u".toList "p".toList 5).2 exFailSim
    (fun _ _ => rfl) (by decide)

/-! ## Order of fallback hits in the result list (claim C9) -/

theorem fallback_fold_append :
    ∀ (ms : List MemNode) (acc : List (RDoc × ℚ)),
      ∃ t, ms.foldl
        (fun acc2 m =>
          if acc2.any (fun r => r.1.text == m.text) then acc2
          else acc2 ++ [(rdocOfMem m, 1 / 2)]) acc = acc ++ t ∧
        ∀ x ∈ t, ∃ m : MemNode, x = (rdocOfMem m, 1 / 2) := by
  intro ms
  induction ms with
  | nil => exact fun acc => ⟨[], by simp⟩
  | cons m ms ih =>
    intro acc
    rw [List.foldl_cons]
    by_cases hcond : acc.any (fun r => r.1.text == m.text)
    · obtain ⟨t, ht, hall⟩ := ih acc
      exact ⟨t, by simpa [hcond] using ht, hall⟩
    · obtain ⟨t, ht, hall⟩ := ih (acc ++ [(rdocOfMem m, 1 / 2)])
      refine ⟨(rdocOfMem m, 1 / 2) :: t, ?_, ?_⟩
      · simp only [hcond, Bool.false_eq_true, if_false]
        rw [ht]
        simp
      · intro x hx
        rcases List.mem_cons.mp hx with rfl | hx
        · exact ⟨m, rfl⟩
        · exact hall x hx

theorem keyword_outer_fold_append (g : Graph) (user_id project_id : LStr) :
    ∀ (kws : List LStr) (base : List (RDoc × ℚ)),
      ∃ t, kws.foldl
        (fun acc kw =>
          ((g.mems.filter
            (fun m => m.user_id == user_id && m.project_id == project_id &&
              isSubstrB (pyLower kw) (pyLower m.text))).take 3).foldl
            (fun acc2 m =>
              if acc2.any (fun r => r.1.text == m.text) then acc2
              else acc2 ++ [(rdocOfMem m, 1 / 2)]) acc) base = base ++ t ∧
        ∀ x ∈ t, ∃ m : MemNode, x = (rdocOfMem m, 1 / 2) := by
  intro kws
  induction kws with
  | nil => exact fun base => ⟨[], by simp⟩
  | cons kw kws ih =>
    intro base
    rw [List.foldl_cons]
    obtain ⟨t0, ht0, hall0⟩ := fallback_fold_append
      ((g.mems.filter
        (fun m => m.user_id == user_id && m.project_id == project_id &&
          isSubstrB (pyLower kw) (pyLower m.text))).take 3) base
    obtain ⟨t1, ht1, hall1⟩ := ih (base ++ t0)
    refine ⟨t0 ++ t1, ?_, ?_⟩
    · rw [ht0, ht1, List.append_assoc]
    · intro x hx
      rcases List.mem_append.mp hx with hx | hx
      · exact hall0 x hx
      · exact hall1 x hx

theorem keywordStage_append (g : Graph) (q user_id project_id : LStr)
    (base : List (RDoc × ℚ)) :
    ∃ t, keywordStage g q user_id project_id base = base ++ t ∧
      ∀ x ∈ t, ∃ m : MemNode, x = (rdocOfMem m, 1 / 2) := by
  simp only [keywordStage]
  split_ifs
  · exact ⟨[], by simp⟩
  · exact keyword_outer_fold_append g user_id project_id _ base

/-- C9 (amended): fallback hits do carry the fixed placeholder score
`0.5`, and in the returned order they all come after every vector hit —
but only because stage 3 appends to the accumulator and the list is
never re-sorted by score; the placeholder is *not* necessarily a worse
(greater) distance than the vector hits' raw scores. -/
theorem query_memories_fallback_last (vs : Option SimFn) (g : Graph)
    (q user_id project_id : LStr) (k : Nat) :
    ∃ n,
      (∀ r ∈ (query_memories vs g q user_id project_id k).take n,
        r.doc.m_user_id ≠ none) ∧
      (∀ r ∈ (query_memories vs g q user_id project_id k).drop n,
        r.score = 1 / 2 ∧ r.doc.m_user_id = none) := by
  rcases vs with _ | sim
  · exact ⟨0, by simp [query_memories], by simp [query_memories]⟩
  · by_cases hlen : (stage12 sim q user_id project_id k).length < k
    · obtain ⟨t, ht, hall⟩ :=
        keywordStage_append g q user_id project_id (stage12 sim q user_id project_id k)
      have hout : query_memories (some sim) g q user_id project_id k =
          finalizeResults (stage12 sim q user_id project_id k) ++
            finalizeResults (t.take (k - (stage12 sim q user_id project_id k).length)) := by
        simp only [query_memories]
        rw [if_pos hlen, ht, List.take_append_eq_append_take,
          List.take_of_length_le (le_of_lt hlen)]
        simp only [finalizeResults, List.map_append]
      refine ⟨(finalizeResults (stage12 sim q user_id project_id k)).length, ?_, ?_⟩
      · intro r hr
        rw [hout, List.take_left] at hr
        rcases List.mem_map.mp hr with ⟨p, hp, rfl⟩
        have := (mem_stage12 hp).1
        simp [this]
      · intro r hr
        rw [hout, List.drop_left] at hr
        rcases List.mem_map.mp hr with ⟨p, hp, rfl⟩
        obtain ⟨m, rfl⟩ := hall p (List.mem_of_mem_take hp)
        exact ⟨rfl, rfl⟩
    · have hout : query_memories (some sim) g q user_id project_id k =
          finalizeResults ((stage12 sim q user_id project_id k).take k) := by
        simp only [query_memories]
        rw [if_neg hlen]
      refine ⟨(finalizeResults ((stage12 sim q user_id project_id k).take k)).length,
        ?_, ?_⟩
      · intro r hr
        rw [hout, List.take_length] at hr
        rcases List.mem_map.mp hr with ⟨p, hp, rfl⟩
        have := (mem_stage12 (List.mem_of_mem_take hp)).1
        simp [this]
      · intro r hr
        rw [hout, List.drop_length] at hr
        exact absurd hr (List.not_mem_nil r)

/-- C9 counterexample: a concrete run where the genuine vector hit has
raw distance 2 while the fallback placeholder is `0.5` — the placeholder
is not a worse (greater) distance than the vector hit's score. -/
theorem query_memories_fallback_score_cex :
    exOut.map (fun r => r.score) = [2, 1 / 2] ∧
      exOut.map (fun r => r.doc.m_user_id) = [some "u".toList, none] ∧
      ¬ ((2 : ℚ) < 1 / 2) :=
  ⟨by decide, by decide, by norm_num⟩

/-! ## `NEXT`-edge creation during ingestion (claim C2) -/

theorem mergeDoc_fields (g : Graph) (key source user_id project_id : LStr) :
    (mergeDoc g key source user_id project_id).mems = g.mems ∧
      (mergeDoc g key source user_id project_id).nexts = g.nexts ∧
      (mergeDoc g key source user_id project_id).nextMemId = g.nextMemId := by
  unfold mergeDoc
  split_ifs <;> exact ⟨rfl, rfl, rfl⟩

theorem mergeContains_fields (g : Graph) (key : LStr) (mid : Nat) :
    (mergeContains g key mid).mems = g.mems ∧
      (mergeContains g key mid).nexts = g.nexts ∧
      (mergeContains g key mid).nextMemId = g.nextMemId := by
  unfold mergeContains
  split_ifs <;> exact ⟨rfl, rfl, rfl⟩

theorem mergeNextAll_single (g : Graph) (p c : LStr) (m1 m2 : MemNode)
    (h1 : g.mems.filter (fun m => m.text == p) = [m1])
    (h2 : g.mems.filter (fun m => m.text == c) = [m2])
    (hnotin : (m1.id, m2.id) ∉ g.nexts) :
    (mergeNextAll g p c).nexts = g.nexts ++ [(m1.id, m2.id)] ∧
      (mergeNextAll g p c).mems = g.mems ∧
      (mergeNextAll g p c).nextMemId = g.nextMemId := by
  unfold mergeNextAll
  rw [h1, h2]
  simp [hnotin]

theorem chainAux_length (a b n : Nat) : (chainAux a b n).length = n := by
  induction n generalizing a b with
  | zero => rfl
  | succ n ih => simp [chainAux, ih]

theorem nextChain_length (a n : Nat) : (nextChain a n).length = n :=
  chainAux_length a (a + 1) n

theorem ingestChunksGo_spec (key source user_id project_id : LStr) :
    ∀ (rest : List LStr) (g : Graph) (pm : MemNode) (i : Nat),
      GraphWF g →
      g.mems.filter (fun m => m.text == pm.text) = [pm] →
      (∀ m ∈ g.mems, m.text ∉ rest) →
      rest.Nodup →
      pm.text ∉ rest →
      (ingestChunksGo key source user_id project_id g (some pm.text) i rest).nexts
          = g.nexts ++ chainAux pm.id g.nextMemId rest.length ∧
        (ingestChunksGo key source user_id project_id g (some pm.text) i rest).mems
          = g.mems ++ newMemsFrom user_id project_id g.nextMemId i rest := by
  intro rest
  induction rest with
  | nil =>
    intro g pm i _ _ _ _ _
    exact ⟨by simp [ingestChunksGo, chainAux], by simp [ingestChunksGo, newMemsFrom]⟩
  | cons c rest ih =>
    intro g pm i hwf hfilter hfresh hnodup hpmnot
    have hpm_mem : pm ∈ g.mems := by
      have : pm ∈ g.mems.filter (fun m => m.text == pm.text) := by
        rw [hfilter]
        exact List.mem_singleton.mpr rfl
      exact (List.mem_filter.mp this).1
    have hpmlt : pm.id < g.nextMemId := hwf.1 pm hpm_mem
    have hpmne_c : pm.text ≠ c := fun hcon => hpmnot (hcon ▸ List.mem_cons_self _ _)
    have hcfresh : ∀ m ∈ g.mems, m.text ≠ c :=
      fun m hm hcon => hfresh m hm (hcon ▸ List.mem_cons_self _ _)
    have hcnotin : c ∉ rest := (List.nodup_cons.mp hnodup).1
    -- the freshly created node for chunk `c`
    set nodeC : MemNode :=
      ⟨g.nextMemId, c, user_id, project_id, none, some i, 1, g.nextMemId⟩ with hnodeC
    simp only [ingestChunksGo]
    obtain ⟨hd_mems, hd_nexts, hd_id⟩ := mergeDoc_fields g key source user_id project_id
    set g1 := mergeDoc g key source user_id project_id with hg1
    set g2 := createMem g1 c user_id project_id (some i) none 1 with hg2
    have hg2_mems : g2.mems = g.mems ++ [nodeC] := by
      simp [hg2, createMem, hd_mems, hd_id, hnodeC]
    have hg2_nexts : g2.nexts = g.nexts := by simp [hg2, createMem, hd_nexts]
    have hg2_id : g2.nextMemId = g.nextMemId + 1 := by simp [hg2, createMem, hd_id]
    obtain ⟨hc_mems, hc_nexts, hc_id⟩ := mergeContains_fields g2 key g1.nextMemId
    set g3 := mergeContains g2 key g1.nextMemId with hg3
    have hg3_mems : g3.mems = g.mems ++ [nodeC] := by rw [hc_mems, hg2_mems]
    have hg3_nexts : g3.nexts = g.nexts := by rw [hc_nexts, hg2_nexts]
    have hg3_id : g3.nextMemId = g.nextMemId + 1 := by rw [hc_id, hg2_id]
    -- the NEXT merge adds exactly the edge (pm.id, nodeC.id)
    have hfilter_p : g3.mems.filter (fun m => m.text == pm.text) = [pm] := by
      rw [hg3_mems, List.filter_append, hfilter]
      have : [nodeC].filter (fun m => m.text == pm.text) = [] := by
        simp [hnodeC, (by simpa using hpmne_c.symm : ¬(c = pm.text))]
      rw [this]
      simp
    have hfilter_c : g3.mems.filter (fun m => m.text == c) = [nodeC] := by
      rw [hg3_mems, List.filter_append]
      have h0 : g.mems.filter (fun m => m.text == c) = [] := by
        rw [List.filter_eq_nil_iff]
        intro m hm
        simpa using hcfresh m hm
      rw [h0]
      simp [hnodeC]
    have hnotin : (pm.id, nodeC.id) ∉ g3.nexts := by
      rw [hg3_nexts]
      intro hcon
      have := (hwf.2 _ hcon).2
      simp only [hnodeC] at this
      omega
    obtain ⟨hm_nexts, hm_mems, hm_id⟩ := mergeNextAll_single g3 pm.text c pm nodeC
      hfilter_p hfilter_c hnotin
    set g4 := mergeNextAll g3 pm.text c with hg4
    -- apply the induction hypothesis at the new node
    have hwf4 : GraphWF g4 := by
      constructor
      · intro m hm
        rw [hm_mems, hg3_mems] at hm
        rw [hm_id, hg3_id]
        rcases List.mem_append.mp hm with hm | hm
        · exact Nat.lt_succ_of_lt (hwf.1 m hm)
        · rcases List.mem_singleton.mp hm with rfl
          simp [hnodeC]
      · intro pr hpr
        rw [hm_nexts, hg3_nexts] at hpr
        rw [hm_id, hg3_id]
        rcases List.mem_append.mp hpr with hpr | hpr
        · exact ⟨Nat.lt_succ_of_lt (hwf.2 pr hpr).1, Nat.lt_succ_of_lt (hwf.2 pr hpr).2⟩
        · rcases List.mem_singleton.mp hpr with rfl
          simp only [hnodeC]
          omega
    have hfilter4 : g4.mems.filter (fun m => m.text == nodeC.text) = [nodeC] := by
      rw [hm_mems]
      simpa [hnodeC] using hfilter_c
    have hfresh4 : ∀ m ∈ g4.mems, m.text ∉ rest := by
      intro m hm
      rw [hm_mems, hg3_mems] at hm
      rcases List.mem_append.mp hm with hm | hm
      · exact fun hcon => hfresh m hm (List.mem_cons_of_mem _ hcon)
      · rcases List.mem_singleton.mp hm with rfl
        simpa [hnodeC] using hcnotin
    have hpmnot4 : nodeC.text ∉ rest := by simpa [hnodeC] using hcnotin
    obtain ⟨ihn, ihm⟩ := ih g4 nodeC (i + 1) hwf4 hfilter4 hfresh4
      (List.nodup_cons.mp hnodup).2 hpmnot4
    constructor
    · rw [ihn, hm_nexts, hg3_nexts, hm_id, hg3_id]
      simp only [hnodeC, List.length_cons, chainAux, List.append_assoc,
        List.singleton_append]
    · rw [ihm, hm_mems, hg3_mems, hm_id, hg3_id]
      simp only [hnodeC, newMemsFrom, List.append_assoc, List.singleton_append]

/-- C2 (amended): when no pre-existing memory node shares a text with any
chunk and the chunks are pairwise distinct, ingesting a document whose
chunker output has `N` chunks creates exactly the `N − 1` consecutive
`NEXT` edges, each linking the fresh node of chunk `i` to the fresh node
of chunk `i + 1`; with text collisions the text-keyed `MATCH … MERGE`
creates extra cross-linking edges (see the counterexample). -/
theorem add_document_memory_next_edges (st : SvcState) (text : LStr) (md : MetaD)
    (hwf : GraphWF st.graph)
    (hfresh : ∀ m ∈ st.graph.mems, m.text ∉ _split_document text)
    (hnodup : (_split_document text).Nodup) :
    (add_document_memory st text md).1.graph.nexts
        = st.graph.nexts ++
            nextChain st.graph.nextMemId ((_split_document text).length - 1) ∧
      (add_document_memory st text md).1.graph.mems
        = st.graph.mems ++
            newMemsFrom md.user_id md.project_id st.graph.nextMemId 0
              (_split_document text) := by
  have hgraph : (add_document_memory st text md).1.graph =
      ingestChunksGo (md.doc_id.getD (md.source.getD "unknown".toList))
        (md.source.getD "unknown".toList) md.user_id md.project_id st.graph none 0
        (_split_document text) := rfl
  rw [hgraph]
  set key := md.doc_id.getD (md.source.getD "unknown".toList)
  set source := md.source.getD "unknown".toList
  rcases hchunks : _split_document text with _ | ⟨c0, rest⟩
  · simp [ingestChunksGo, nextChain, chainAux, newMemsFrom]
  · rw [hchunks] at hfresh hnodup
    -- first iteration: create the node for chunk 0, no NEXT edge
    simp only [ingestChunksGo]
    obtain ⟨hd_mems, hd_nexts, hd_id⟩ := mergeDoc_fields st.graph key source
      md.user_id md.project_id
    set nodeC : MemNode :=
      ⟨st.graph.nextMemId, c0, md.user_id, md.project_id, none, some 0, 1,
        st.graph.nextMemId⟩ with hnodeC
    set g1 := mergeDoc st.graph key source md.user_id md.project_id with hg1
    set g2 := createMem g1 c0 md.user_id md.project_id (some 0) none 1 with hg2
    have hg2_mems : g2.mems = st.graph.mems ++ [nodeC] := by
      simp [hg2, createMem, hd_mems, hd_id, hnodeC]
    have hg2_nexts : g2.nexts = st.graph.nexts := by simp [hg2, createMem, hd_nexts]
    have hg2_id : g2.nextMemId = st.graph.nextMemId + 1 := by
      simp [hg2, createMem, hd_id]
    obtain ⟨hc_mems, hc_nexts, hc_id⟩ := mergeContains_fields g2 key g1.nextMemId
    set g3 := mergeContains g2 key g1.nextMemId with hg3
    have hg3_mems : g3.mems = st.graph.mems ++ [nodeC] := by rw [hc_mems, hg2_mems]
    have hg3_nexts : g3.nexts = st.graph.nexts := by rw [hc_nexts, hg2_nexts]
    have hg3_id : g3.nextMemId = st.graph.nextMemId + 1 := by rw [hc_id, hg2_id]
    have hc0fresh : ∀ m ∈ st.graph.mems, m.text ≠ c0 :=
      fun m hm hcon => hfresh m hm (hcon ▸ List.mem_cons_self _ _)
    have hc0notin : c0 ∉ rest := (List.nodup_cons.mp hnodup).1
    have hwf3 : GraphWF g3 := by
      constructor
      · intro m hm
        rw [hg3_mems] at hm
        rw [hg3_id]
        rcases List.mem_append.mp hm with hm | hm
        · exact Nat.lt_succ_of_lt (hwf.1 m hm)
        · rcases List.mem_singleton.mp hm with rfl
          simp [hnodeC]
      · intro pr hpr
        rw [hg3_nexts] at hpr
        rw [hg3_id]
        exact ⟨Nat.lt_succ_of_lt (hwf.2 pr hpr).1, Nat.lt_succ_of_lt (hwf.2 pr hpr).2⟩
    have hfilter3 : g3.mems.filter (fun m => m.text == nodeC.text) = [nodeC] := by
      rw [hg3_mems, List.filter_append]
      have h0 : st.graph.mems.filter (fun m => m.text == nodeC.text) = [] := by
        rw [List.filter_eq_nil_iff]
        intro m hm
        simpa [hnodeC] using hc0fresh m hm
      rw [h0]
      simp [hnodeC]
    have hfresh3 : ∀ m ∈ g3.mems, m.text ∉ rest := by
      intro m hm
      rw [hg3_mems] at hm
      rcases List.mem_append.mp hm with hm | hm
      · exact fun hcon => hfresh m hm (List.mem_cons_of_mem _ hcon)
      · rcases List.mem_singleton.mp hm with rfl
        simpa [hnodeC] using hc0notin
    have hnot3 : nodeC.text ∉ rest := by simpa [hnodeC] using hc0notin
    obtain ⟨ihn, ihm⟩ := ingestChunksGo_spec key source md.user_id md.project_id rest
      g3 nodeC 1 hwf3 hfilter3 hfresh3 (List.nodup_cons.mp hnodup).2 hnot3
    constructor
    · rw [ihn, hg3_nexts, hg3_id]
      simp only [hnodeC, List.length_cons, Nat.add_sub_cancel, nextChain]
    · rw [ihm, hg3_mems, hg3_id]
      simp only [hnodeC, newMemsFrom, List.append_assoc, List.singleton_append]

/-- C2 counterexample: `exText2` chunks into N = 2 pieces; the first
ingestion creates the single edge `(0, 1)`, but re-ingesting the same
text (so the chunk texts collide with stored memory nodes) creates three
more edges — `(0, 3)`, `(2, 1)` and `(2, 3)` — instead of the claimed
N − 1 = 1, because the `NEXT` merge matches memory nodes by text. -/
theorem add_document_memory_next_cex :
    (_split_document exText2).length = 2 ∧
      exState1.graph.nexts = [(0, 1)] ∧
      exState2.graph.nexts = [(0, 1), (0, 3), (2, 1), (2, 3)] :=
  ⟨by decide, by decide, by decide⟩

/-- C2 witness: ingesting the two-chunk document into the empty service
creates exactly one consecutive `NEXT` edge over the two fresh nodes. -/
theorem add_document_memory_next_witness :
    (add_document_memory exState0 exText2 exMeta).1.graph.nexts
        = exState0.graph.nexts ++
            nextChain exState0.graph.nextMemId ((_split_document exText2).length - 1) ∧
      (add_document_memory exState0 exText2 exMeta).1.graph.mems
        = exState0.graph.mems ++
            newMemsFrom exMeta.user_id exMeta.project_id exState0.graph.nextMemId 0
              (_split_document exText2) :=
  add_document_memory_next_edges exState0 exText2 exMeta
    ⟨fun m hm => absurd hm (List.not_mem_nil m), fun p hp => absurd hp (List.not_mem_nil p)⟩
    (by decide) (by decide)

/-! ## The match-percentage transform (claim C7) -/

theorem pyInt_eq_floor (q : ℚ) (h : 0 ≤ q) : pyInt q = ⌊q⌋ := by
  rw [pyInt, Int.tdiv_eq_ediv (Rat.num_nonneg.mpr h) (Int.ofNat_nonneg _), Rat.floor_def]

theorem matchPercentage_anti {s1 s2 : ℚ} (h0 : 0 ≤ s1) (h12 : s1 < s2) :
    matchPercentage s2 ≤ matchPercentage s1 := by
  have h1 : (0 : ℚ) < 1 + s1 := by linarith
  have h2 : (0 : ℚ) < 1 + s2 := by linarith
  have harg : 1 / (1 + s2) * 100 ≤ 1 / (1 + s1) * 100 := by
    have hd := one_div_le_one_div_of_le h1 (by linarith : 1 + s1 ≤ 1 + s2)
    nlinarith
  have hnn2 : (0 : ℚ) ≤ 1 / (1 + s2) * 100 := by positivity
  have hnn1 : (0 : ℚ) ≤ 1 / (1 + s1) * 100 := le_trans hnn2 harg
  rw [matchPercentage, matchPercentage, pyInt_eq_floor _ hnn2, pyInt_eq_floor _ hnn1]
  exact Int.floor_le_floor harg

/-- C7 (amended): every result's `match_percentage` is the *truncation*
`int(100 / (1 + raw_score))` (not `round`), and the transform is
monotonically non-increasing over nonnegative raw distances. -/
theorem query_memories_match_percentage :
    (∀ (vs : Option SimFn) (g : Graph) (q user_id project_id : LStr) (k : Nat),
      ∀ r ∈ query_memories vs g q user_id project_id k,
        r.match_percentage = matchPercentage r.score) ∧
    (∀ s1 s2 : ℚ, 0 ≤ s1 → s1 < s2 → matchPercentage s2 ≤ matchPercentage s1) := by
  constructor
  · intro vs g q user_id project_id k r hr
    rcases vs with _ | sim
    · exact absurd hr (List.not_mem_nil r)
    · simp only [query_memories, finalizeResults] at hr
      rcases List.mem_map.mp hr with ⟨p, _, rfl⟩
      rfl
  · exact fun s1 s2 h0 h12 => matchPercentage_anti h0 h12

/-- C7 counterexample: the fallback result of `exOut` has raw score `1/2`
and `match_percentage` 66, but `round (100 / (1 + 1/2)) = 67` — the code
truncates instead of rounding. -/
theorem query_memories_match_round_cex :
    exOut.map (fun r => r.score) = [2, 1 / 2] ∧
      exOut.map (fun r => r.match_percentage) = [33, 66] ∧
      round ((100 : ℚ) / (1 + 1 / 2)) = 67 := by
  refine ⟨by decide, by decide, ?_⟩
  norm_num [round_eq]

/-- C7 witness: the formula at the concrete vector hit, and antitonicity
at the scores 1/2 < 1. -/
theorem query_memories_match_percentage_witness :
    exVecResult.match_percentage = matchPercentage exVecResult.score ∧
      matchPercentage 1 ≤ matchPercentage (1 / 2) :=
  ⟨query_memories_match_percentage.1 (some exSim) exGraph exQuery "u".toList "p".toList 5
      exVecResult (by decide),
    query_memories_match_percentage.2 (1 / 2) 1 (by norm_num) (by norm_num)⟩

/-! ## Tenant-scoped deletion and index rebuild (claim C8) -/

theorem filter_not_filter_self {α : Type} (p : α → Bool) (l : List α) :
    (l.filter (fun a => !(p a))).filter p = [] := by
  rw [List.filter_eq_nil_iff]
  intro a ha
  rcases List.mem_filter.mp ha with ⟨_, hnp⟩
  simpa using hnp

theorem filter_not_filter_other {α : Type} (p q : α → Bool) (l : List α)
    (h : ∀ a, q a = true → p a = false) :
    (l.filter (fun a => !(p a))).filter q = l.filter q := by
  rw [List.filter_filter]
  apply List.filter_congr
  intro a _
  cases hq : q a
  · simp
  · simp [h a hq]

/-- C8: `clear_all` for tenant A empties A's memory and document nodes,
leaves any other tenant B's total memory count unchanged, and replaces
the vector store with exactly one rebuilt entry per surviving memory
node across all tenants (no store at all if none survive). -/
theorem clear_all_frame (st : SvcState) (u1 p1 u2 p2 : LStr)
    (h : ¬(u1 = u2 ∧ p1 = p2)) :
    ((clear_all st u1 p1).graph.mems.filter
        (fun m => m.user_id == u1 && m.project_id == p1) = []) ∧
      ((clear_all st u1 p1).graph.docs.filter
        (fun d => d.user_id == u1 && d.project_id == p1) = []) ∧
      get_total_memory_count (clear_all st u1 p1).graph u2 p2
        = get_total_memory_count st.graph u2 p2 ∧
      ((clear_all st u1 p1).vs.getD [])
        = (clear_all st u1 p1).graph.mems.map entryOfMem := by
  have hgraph : (clear_all st u1 p1).graph = clearGraph st.graph u1 p1 := by
    simp only [clear_all]
    split_ifs <;> rfl
  have hmems : (clearGraph st.graph u1 p1).mems
      = st.graph.mems.filter (fun m => !(m.user_id == u1 && m.project_id == p1)) := rfl
  have hdocs : (clearGraph st.graph u1 p1).docs
      = st.graph.docs.filter (fun d => !(d.user_id == u1 && d.project_id == p1)) := rfl
  have hdisj : ∀ m : MemNode, (m.user_id == u2 && m.project_id == p2) = true →
      (m.user_id == u1 && m.project_id == p1) = false := by
    intro m hm
    rcases Bool.and_eq_true_iff.mp hm with ⟨h2u, h2p⟩
    by_contra hcon
    rcases Bool.and_eq_true_iff.mp (Bool.of_not_eq_false hcon) with ⟨h1u, h1p⟩
    exact h ⟨(eq_of_beq h1u).symm.trans (eq_of_beq h2u),
      (eq_of_beq h1p).symm.trans (eq_of_beq h2p)⟩
  refine ⟨?_, ?_, ?_, ?_⟩
  · rw [hgraph, hmems]
    exact filter_not_filter_self _ _
  · rw [hgraph, hdocs]
    exact filter_not_filter_self _ _
  · rw [get_total_memory_count, get_total_memory_count, hgraph, hmems,
      filter_not_filter_other _ _ _ hdisj]
  · simp only [clear_all]
    split_ifs with hnil
    · simp [hnil]
    · rfl

/-- C8 witness: clearing tenant `(u1, p1)` from the two-tenant fixture
removes its nodes, keeps tenant `(u2, p2)`'s count at 1, and rebuilds
the store from the single surviving memory. -/
theorem clear_all_frame_witness :
    ((clear_all exStateAB "u1".toList "p1".toList).graph.mems.filter
        (fun m => m.user_id == "u1".toList && m.project_id == "p1".toList) = []) ∧
      ((clear_all exStateAB "u1".toList "p1".toList).graph.docs.filter
        (fun d => d.user_id == "u1".toList && d.project_id == "p1".toList) = []) ∧
      get_total_memory_count (clear_all exStateAB "u1".toList "p1".toList).graph
          "u2".toList "p2".toList
        = get_total_memory_count exStateAB.graph "u2".toList "p2".toList ∧
      ((clear_all exStateAB "u1".toList "p1".toList).vs.getD [])
        = (clear_all exStateAB "u1".toList "p1".toList).graph.mems.map entryOfMem :=
  clear_all_frame exStateAB "u1".toList "p1".toList "u2".toList "p2".toList (by decide)

/-! ## Conversation-turn capture on an uninitialised store (claim C10) -/

/-- C10: with no vector store (`None`: nothing ever ingested and no
snapshot on disk), `add_chat_memory` hits
`self.vector_store.add_texts` and raises before any FAISS or Neo4j
write, leaving the whole state unchanged — while `add_document_memory`
on the same state creates a fresh store instead of raising. -/
theorem add_chat_memory_none_raises (st : SvcState) (q a user_id project_id : LStr)
    (h : st.vs = none) :
    add_chat_memory st q a user_id project_id = (st, some pyAttrError) ∧
      ∀ (t : LStr) (md : MetaD), ((add_document_memory st t md).1).vs ≠ none := by
  constructor
  · simp only [add_chat_memory, h]
  · intro t md
    simp only [add_document_memory, h]
    simp

/-- C10 witness: the empty service state. -/
theorem add_chat_memory_none_raises_witness :
    add_chat_memory exState0 "q".toList "a".toList "u".toList "p".toList
        = (exState0, some pyAttrError) ∧
      ∀ (t : LStr) (md : MetaD), ((add_document_memory exState0 t md).1).vs ≠ none :=
  add_chat_memory_none_raises exState0 "q".toList "a".toList "u".toList "p".toList rfl

/-! ## Conversation scoping across the service boundary (claim C6) -/

/-- C6: the spec requires every persisted entity to carry the optional
`conversation_id` and every read path to filter by it, and the endpoints
do pass it — but no memory-service function declares such a parameter,
so each conversation-scoped endpoint call raises `TypeError` before any
service code runs, and `query_memories` (the search path) has no
conversation parameter at all. -/
theorem conversation_id_not_accepted :
    pyCallAccepts add_document_memory_params upload_call_kwargs = false ∧
      pyCallAccepts get_total_memory_count_params total_count_call_kwargs = false ∧
      pyCallAccepts get_memories_by_document_params document_counts_call_kwargs = false ∧
      pyCallAccepts get_recent_memories_params recent_memories_call_kwargs = false ∧
      query_memories_params.contains "conversation_id" = false := by
  decide

end MaxMemory
